import Mathlib

/-!
Verification development for the `cvisb_workshop_2020` antibody-analysis
notebooks (`tutorial/zika_plasmablasts.ipynb` and the companion tutorial
notebook).  The notebooks' own functions (`get_nt_mutations`,
`mutation_bubbleplot`, the identifier-truncation cell) are translated
directly from their Python source.  The abutils library operations that the
notebooks call (`Pair`, `assign_pairs`, `group_lineages`, `cluster`) are not
part of the repository; they are modelled from the specification, and each
such definition is marked `Modelled from the spec:` in its doc comment.

Python floats (mutation counts, percent identities) are embedded as `ℚ`;
Python `None`-able values as `Option`; a Python runtime error (e.g.
subscripting `None`, or `min`/`max` of an empty list) makes the embedded
function return `none`.
-/

/-- Chain designation of a sequence record: `heavy`, `light`, or anything
else the annotation pipeline produced (`unknown`). -/
inductive Chain where
  | heavy
  | light
  | unknown
deriving DecidableEq

/-- Value of a named annotation field on a sequence record: a number, a
string, or a nested table of named numbers (such as `var_muts_nt`, whose
`num` entry is the nucleotide mutation count, or `nt_identity`, whose `v`
entry is the percent identity to the germline V gene). -/
inductive AnnValue where
  | num (value : ℚ)
  | str (value : List Char)
  | table (fields : List (String × ℚ))
deriving DecidableEq

/-- Looks up a key in an association list, returning the first match. -/
def alistLookup {α : Type} (key : String) : List (String × α) → Option α
  | [] => none
  | (k, v) :: rest => if k = key then some v else alistLookup key rest

/-- Sets a key in an association list, replacing the first existing entry
or appending a new one (dictionary-style assignment). -/
def alistSet {α : Type} (key : String) (val : α) : List (String × α) → List (String × α)
  | [] => [(key, val)]
  | (k, v) :: rest => if k = key then (key, val) :: rest else (k, v) :: alistSet key val rest

/-- A loaded antibody sequence record: identifier, chain designation,
subject/donor identifier, raw sequence string, and the mapping of named
annotation fields produced by the annotation pipeline.  Identifiers and
sequences are lists of characters so that identifier manipulation
(splitting at a delimiter) is fully explicit. -/
structure SequenceRecord where
  id : List Char
  chain : Chain
  subject : String
  sequence : List Char
  annotations : List (String × AnnValue)
deriving DecidableEq

/-- Two-level annotation access `record[field][sub]`, as used by the
notebooks for `s['var_muts_nt']['num']` and `p.heavy['nt_identity']['v']`:
returns `none` unless `field` is present and holds a table containing
`sub`. -/
def ann2 (s : SequenceRecord) (field sub : String) : Option ℚ :=
  match alistLookup field s.annotations with
  | some (AnnValue.table fields) => alistLookup sub fields
  | _ => none

/-- Modelled from the spec: a `Pair` (abutils `Pair` is not in the
repository) is an ownership grouping of the records sharing one derived
grouping key, holding its key (`name`), the subject inherited from its
members, and the member records themselves.  Heavy/light sub-lists are
derived by chain designation. -/
structure Pair where
  name : List Char
  subject : String
  members : List SequenceRecord
deriving DecidableEq

/-- Heavy-chain members of a Pair. -/
def Pair.heavies (p : Pair) : List SequenceRecord :=
  p.members.filter (fun r => decide (r.chain = Chain.heavy))

/-- Light-chain members of a Pair. -/
def Pair.lights (p : Pair) : List SequenceRecord :=
  p.members.filter (fun r => decide (r.chain = Chain.light))

/-- The Pair's heavy chain as used by the notebooks (`p.heavy`): the first
heavy member when one exists, otherwise `none`. -/
def Pair.heavy (p : Pair) : Option SequenceRecord :=
  p.heavies.head?

/-- The Pair's light chain as used by the notebooks (`p.light`). -/
def Pair.light (p : Pair) : Option SequenceRecord :=
  p.lights.head?

/-- Modelled from the spec: `is_pair` is true exactly when the Pair holds
exactly one heavy and exactly one light record; every other heavy/light
multiplicity is a valid Pair that is not a true pair. -/
def Pair.is_pair (p : Pair) : Bool :=
  decide (p.heavies.length = 1 ∧ p.lights.length = 1)

/-- Grouping key of a record identifier: the text before the first
occurrence of the delimiter (Python `id.split(delim)[0]`); an identifier
without the delimiter is its own key. -/
def keyOf (delim : Char) (id : List Char) : List Char :=
  id.takeWhile (fun c => c ≠ delim)

/-- Keeps the first occurrence of each key, in first-appearance order
(`seen` accumulates the keys already emitted). -/
def firstUniqueAux (seen : List (List Char)) : List (List Char) → List (List Char)
  | [] => []
  | k :: rest =>
    if k ∈ seen then firstUniqueAux seen rest
    else k :: firstUniqueAux (k :: seen) rest

/-- Distinct keys of a list in first-appearance order. -/
def firstUnique (l : List (List Char)) : List (List Char) :=
  firstUniqueAux [] l

/-- Modelled from the spec: `assign_pairs` (abutils is not in the
repository) partitions records into Pairs by grouping records whose
identifier prefix before the first occurrence of the delimiter is
identical; group order follows first-appearance order of each distinct
key, and a Pair's subject is inherited from its first member. -/
def assign_pairs (delim : Char) (records : List SequenceRecord) : List Pair :=
  (firstUnique (records.map (fun r => keyOf delim r.id))).map (fun k =>
    { name := k
      subject := ((records.filter (fun r => decide (keyOf delim r.id = k))).head?.map
        (fun r => r.subject)).getD ""
      members := records.filter (fun r => decide (keyOf delim r.id = k)) })

/-- Identifier normalization performed explicitly by the tutorial notebook
(`s.id = s.id.split('_')[0]; s['seq_id'] = s.id`): truncate the identifier
at the first underscore and mirror the new identifier into the `seq_id`
annotation field. -/
def truncate_id (s : SequenceRecord) : SequenceRecord :=
  let newId := keyOf '_' s.id
  { s with
    id := newId
    annotations := alistSet "seq_id" (AnnValue.str newId) s.annotations }

/-- The donor-color dictionary of the Zika notebook
(`color_dict = {d: c for d, c in zip(donors, colors)}`). -/
def color_dict : List (String × String) :=
  [("donor_1", "#004E64"), ("donor_2", "#5FAD56"),
   ("donor_3", "#3AAED8"), ("donor_4", "#F78154")]

/-- Dictionary lookup `color_dict[subject]`: `none` models a Python
`KeyError`. -/
def lookupColor (subject : String) : Option String :=
  alistLookup subject color_dict

/-- Replacement loop of Python `str.replace(pat, rep)` over explicit
characters, driven by a fuel counter equal to the input length so that the
recursion is structural. -/
def replaceAux (pat rep : List Char) : Nat → List Char → List Char
  | _, [] => []
  | 0, s => s
  | fuel + 1, c :: rest =>
    if pat ≠ [] ∧ pat.isPrefixOf (c :: rest) then
      rep ++ replaceAux pat rep fuel ((c :: rest).drop pat.length)
    else
      c :: replaceAux pat rep fuel rest

/-- Python `s.replace(pat, rep)`: replace every non-overlapping occurrence
of `pat` in `s` by `rep`. -/
def pyReplace (s pat rep : String) : String :=
  (replaceAux pat.data rep.data s.data.length s.data).asString

/-- One row of the mutation `DataFrame` built by `get_nt_mutations`:
mutation count, donor label, display color. -/
structure MutRow where
  muts : ℚ
  donor : String
  color : String
deriving DecidableEq

/-- Heavy-branch row of `get_nt_mutations`
(`{'muts': s.heavy['var_muts_nt']['num'], 'donor': s.subject.replace('donor_', ''),
'color': color_dict[s.subject]}`).  `none` models a fatal Python error
(subscripting a missing chain, or a `KeyError` on the color dictionary);
`some none` is a record dropped from the aggregation.  Modelled from the
spec: a record missing the requested annotation field is excluded from the
aggregation (counted, not fatal), since the library's field access is not
part of the repository. -/
def heavyRow (p : Pair) : Option (Option MutRow) :=
  match p.heavy with
  | none => none
  | some s =>
    match ann2 s "var_muts_nt" "num" with
    | none => some none
    | some m =>
      match lookupColor p.subject with
      | none => none
      | some c => some (some { muts := m, donor := pyReplace p.subject "donor_" "", color := c })

/-- Light-branch row of `get_nt_mutations`: identical to `heavyRow` with
the light chain in place of the heavy chain. -/
def lightRow (p : Pair) : Option (Option MutRow) :=
  match p.light with
  | none => none
  | some s =>
    match ann2 s "var_muts_nt" "num" with
    | none => some none
    | some m =>
      match lookupColor p.subject with
      | none => none
      | some c => some (some { muts := m, donor := pyReplace p.subject "donor_" "", color := c })

/-- Runs a row builder over a list of Pairs: a fatal error (`none`) on any
Pair aborts the whole aggregation, a dropped record (`some none`)
contributes nothing, and a row is appended in order. -/
def collectRows (f : Pair → Option (Option MutRow)) : List Pair → Option (List MutRow)
  | [] => some []
  | p :: ps =>
    match f p, collectRows f ps with
    | none, _ => none
    | some none, rest => rest
    | some (some row), some rows => some (row :: rows)
    | some (some _), none => none

/-- The Zika notebook's `get_nt_mutations(pairs, chain, just_pairs=True)`:
optionally restrict to true pairs, then project the per-record nucleotide
mutation count with donor label and color.  The heavy branch pre-filters
`[p for p in pairs if p.heavy is not None]`; the light branch's filter is
`[p for p in pairs if p is not None]`, which keeps every Pair (translated
as a filter that is always true). -/
def get_nt_mutations (pairs : List Pair) (chain : String) (just_pairs : Bool) :
    Option (List MutRow) :=
  let pairs := if just_pairs then pairs.filter (fun p => p.is_pair) else pairs
  if chain = "heavy" then
    collectRows heavyRow (pairs.filter (fun p => p.heavy.isSome))
  else
    collectRows lightRow (pairs.filter (fun _ => true))

/-- Python `min` over a list of values of a linear order: `none` on the
empty list (where Python raises `ValueError`). -/
def pyMin {α : Type} [LinearOrder α] : List α → Option α
  | [] => none
  | h :: t => some (t.foldl min h)

/-- Python `max` over a list of values of a linear order: `none` on the
empty list. -/
def pyMax {α : Type} [LinearOrder α] : List α → Option α
  | [] => none
  | h :: t => some (t.foldl max h)

/-- Modelled from the spec: a clonal `Lineage` (abutils `Lineage` is not in
the repository) is a named set of Pairs inferred to derive from a common
ancestral rearrangement. -/
structure Lineage where
  name : List Char
  pairs : List Pair
deriving DecidableEq

/-- Member Pairs of the Lineage bearing a heavy chain, as used by the
Zika notebook's `l.heavies`. -/
def Lineage.heavies (l : Lineage) : List Pair :=
  l.pairs.filter (fun p => p.heavy.isSome)

/-- Modelled from the spec: the Lineage's stable name is derived
deterministically from its member identifiers as the smallest member
identifier (the spec offers "smallest member id, or a hash"). -/
def lineageName (members : List Pair) : List Char :=
  match members.map (fun p => p.name) with
  | [] => []
  | h :: t => t.foldl min h

/-- Modelled from the spec: single-linkage insertion step.  A new Pair is
united with every existing lineage containing a member similar to it;
the untouched lineages are kept. -/
def insertLinked (sim : Pair → Pair → Bool) (lins : List (List Pair)) (p : Pair) :
    List (List Pair) :=
  (p :: (lins.filter (fun lin => lin.any (fun q => sim q p))).flatten)
    :: lins.filter (fun lin => !lin.any (fun q => sim q p))

/-- Modelled from the spec: single-linkage clustering of a list of Pairs
under an injected pairwise similarity capability. -/
def singleLinkage (sim : Pair → Pair → Bool) (ps : List Pair) : List (List Pair) :=
  ps.foldl (insertLinked sim) []

/-- Modelled from the spec: `group_lineages` clusters the Pairs possessing
the designated (heavy) chain into clonal lineages by single-linkage over
the injected similarity capability; Pairs lacking the designated chain are
excluded from lineage assignment.  Each lineage receives its stable
derived name. -/
def group_lineages (sim : Pair → Pair → Bool) (ps : List Pair) : List Lineage :=
  (singleLinkage sim (ps.filter (fun p => p.heavy.isSome))).map (fun mem =>
    { name := lineageName mem, pairs := mem })

/-- One bubble of the Zika notebook's `mutation_bubbleplot`: minimum and
maximum per-Pair heavy-chain mutation level, donor color, marker area. -/
structure BubbleEntry where
  x : ℚ
  y : ℚ
  color : String
  area : Nat
deriving DecidableEq

/-- Per-Pair derived metric of the bubbleplot:
`100. - p.heavy['nt_identity']['v']`; `none` when the heavy chain or the
field is missing (a fatal subscript error in Python). -/
def heavyMutationLevel (p : Pair) : Option ℚ :=
  match p.heavy with
  | none => none
  | some s => (ann2 s "nt_identity" "v").map (fun v => 100 - v)

/-- The bubbleplot's metric comprehension
`[100. - p.heavy['nt_identity']['v'] for p in l.heavies]`: fails (`none`)
if the metric of any heavy Pair fails. -/
def collectLevels : List Pair → Option (List ℚ)
  | [] => some []
  | p :: ps =>
    match heavyMutationLevel p, collectLevels ps with
    | some q, some qs => some (q :: qs)
    | _, _ => none

/-- Loop body of `mutation_bubbleplot` for one lineage that was not
skipped: `min` and `max` of the metric comprehension (failing on an empty
comprehension, as Python `min([])` does), the color of the first heavy
Pair's subject (failing on a `KeyError`), and the marker area
`45 * len(l.heavies)`. -/
def bubbleEntry (l : Lineage) : Option BubbleEntry :=
  match collectLevels l.heavies with
  | none => none
  | some qs =>
    match pyMin qs, pyMax qs, l.heavies.head? with
    | some x, some y, some p0 =>
      (lookupColor p0.subject).map (fun c =>
        { x := x, y := y, color := c, area := 45 * l.heavies.length })
    | _, _, _ => none

/-- Data-parsing loop of the Zika notebook's `mutation_bubbleplot`: skip a
lineage exactly when `len(l.heavies) == 1`, otherwise append its bubble;
any Python error aborts the whole aggregation (`none`). -/
def mutation_bubbleplot_data : List Lineage → Option (List BubbleEntry)
  | [] => some []
  | l :: rest =>
    if l.heavies.length = 1 then mutation_bubbleplot_data rest
    else
      match bubbleEntry l, mutation_bubbleplot_data rest with
      | some e, some es => some (e :: es)
      | _, _ => none

/-- Modelled from the spec: a similarity `Cluster` holds its
centroid/reference record and the non-centroid member records. -/
structure Cluster where
  centroid : SequenceRecord
  members : List SequenceRecord
deriving DecidableEq

/-- Number of records in the cluster (centroid included). -/
def Cluster.size (c : Cluster) : Nat :=
  c.members.length + 1

/-- All records of the cluster, centroid first. -/
def Cluster.all (c : Cluster) : List SequenceRecord :=
  c.centroid :: c.members

/-- Insertion step of a stable insertion sort under a boolean "comes no
later than" test. -/
def insertSorted {α : Type} (le : α → α → Bool) (x : α) : List α → List α
  | [] => [x]
  | y :: ys => if le x y then x :: y :: ys else y :: insertSorted le x ys

/-- Stable insertion sort under a boolean "comes no later than" test. -/
def sortBy {α : Type} (le : α → α → Bool) (l : List α) : List α :=
  l.foldr (insertSorted le) []

/-- Modelled from the spec: the Cluster Engine's stable sort key — records
ordered by descending sequence length, ties broken by identifier. -/
def clusterKeyLe (a b : SequenceRecord) : Bool :=
  decide (b.sequence.length < a.sequence.length) ||
    (decide (a.sequence.length = b.sequence.length) && decide (a.id ≤ b.id))

/-- Modelled from the spec: greedy CD-HIT-style clustering pass.  The first
unclustered record opens a new cluster as centroid; every later unclustered
record whose identity to the centroid meets or exceeds the threshold joins
that cluster.  The fuel counter (at least the list length) keeps the
recursion structural. -/
def greedyClusters (identity : SequenceRecord → SequenceRecord → ℚ) (t : ℚ) :
    Nat → List SequenceRecord → List Cluster
  | _, [] => []
  | 0, _ => []
  | fuel + 1, r :: rest =>
    { centroid := r, members := rest.filter (fun s => decide (t ≤ identity r s)) }
      :: greedyClusters identity t fuel (rest.filter (fun s => !decide (t ≤ identity r s)))

/-- Modelled from the spec: the Cluster Engine (`cluster` of abutils is not
in the repository; the external tool is CD-HIT).  Records are sorted by the
stable key and greedily clustered under the injected pairwise identity
capability and the configured threshold. -/
def cluster (identity : SequenceRecord → SequenceRecord → ℚ) (t : ℚ)
    (records : List SequenceRecord) : List Cluster :=
  let sorted := sortBy clusterKeyLe records
  greedyClusters identity t sorted.length sorted

/-- Selection step of `largest_cluster`: keep the incumbent unless the
challenger is strictly larger, so ties go to the first-encountered
cluster. -/
def pickLarger (a b : Cluster) : Cluster :=
  if a.size < b.size then b else a

/-- Modelled from the spec: `largest_cluster` of a clustering run — the
cluster of maximum size, ties broken by first-encountered order; `none`
only for an empty run. -/
def largest_cluster : List Cluster → Option Cluster
  | [] => none
  | c :: rest => some (rest.foldl pickLarger c)

/-! Concrete fixtures used by scenario conjuncts and witnesses. -/

/-- Scenario record `A_1(heavy)` of the Pair Assigner scenario. -/
def recA1 : SequenceRecord :=
  { id := "A_1".data, chain := Chain.heavy, subject := "donor_1",
    sequence := "GATTACA".data, annotations := [] }

/-- Scenario record `A_2(light)` of the Pair Assigner scenario. -/
def recA2 : SequenceRecord :=
  { id := "A_2".data, chain := Chain.light, subject := "donor_1",
    sequence := "CATCAT".data, annotations := [] }

/-- Scenario record `B_1(heavy)` of the Pair Assigner scenario. -/
def recB1 : SequenceRecord :=
  { id := "B_1".data, chain := Chain.heavy, subject := "donor_1",
    sequence := "GGGTTT".data, annotations := [] }

/-- A heavy record carrying the `var_muts_nt.num` annotation field. -/
def recHeavyMut : SequenceRecord :=
  { id := "P_1".data, chain := Chain.heavy, subject := "donor_1",
    sequence := "ACGT".data,
    annotations := [("var_muts_nt", AnnValue.table [("num", 7)])] }

/-- An unpaired Pair: one heavy record with the mutation field, no light
record. -/
def pairHeavyOnly : Pair :=
  { name := ['P'], subject := "donor_1", members := [recHeavyMut] }

/-- A Pair whose single heavy record lacks the `var_muts_nt` field. -/
def pairNoField : Pair :=
  { name := ['N'], subject := "donor_1",
    members := [{ id := "N_1".data, chain := Chain.heavy, subject := "donor_1",
                  sequence := "ACGT".data, annotations := [] }] }

/-- A Pair holding only a light record. -/
def pairLightOnly : Pair :=
  { name := ['Q'], subject := "donor_1",
    members := [{ id := "Q_2".data, chain := Chain.light, subject := "donor_1",
                  sequence := "TTTT".data, annotations := [] }] }

/-- A Pair whose heavy record has 85 percent nucleotide V-gene identity. -/
def pairId85 : Pair :=
  { name := ['R'], subject := "donor_2",
    members := [{ id := "R_1".data, chain := Chain.heavy, subject := "donor_2",
                  sequence := "ACGT".data,
                  annotations := [("nt_identity", AnnValue.table [("v", 85)])] }] }

/-- A Pair whose heavy record has 90 percent nucleotide V-gene identity. -/
def pairId90 : Pair :=
  { name := ['S'], subject := "donor_2",
    members := [{ id := "S_1".data, chain := Chain.heavy, subject := "donor_2",
                  sequence := "ACGT".data,
                  annotations := [("nt_identity", AnnValue.table [("v", 90)])] }] }

/-- A Lineage with zero heavy-chain-bearing Pairs. -/
def linZeroHeavy : Lineage := { name := ['Q'], pairs := [pairLightOnly] }

/-- A Lineage with exactly one heavy-chain-bearing Pair. -/
def linOneHeavy : Lineage := { name := ['R'], pairs := [pairId85] }

/-- A Lineage with two heavy-chain-bearing Pairs. -/
def linTwoHeavy : Lineage := { name := ['R'], pairs := [pairId85, pairId90] }

/-- A Pair whose heavy record has 95 percent nucleotide V-gene identity. -/
def pairId95 : Pair :=
  { name := ['T'], subject := "donor_2",
    members := [{ id := "T_1".data, chain := Chain.heavy, subject := "donor_2",
                  sequence := "ACGT".data,
                  annotations := [("nt_identity", AnnValue.table [("v", 95)])] }] }

/-- Directed similarity edges of the single-linkage witness scenario:
`R`~`S` and `S`~`T`, but not `R`~`T`. -/
def simEdge (a b : List Char) : Bool :=
  decide ((a, b) ∈ [(['R'], ['S']), (['S'], ['T'])])

/-- A symmetric pairwise similarity capability for the single-linkage
witness scenario. -/
def simW (p q : Pair) : Bool :=
  simEdge p.name q.name || simEdge q.name p.name

/-- A pairwise identity capability for the Cluster Engine witness: full
identity within a subject, none across subjects. -/
def identitySameSubject (r s : SequenceRecord) : ℚ :=
  if r.subject = s.subject then 1 else 0

/-- Cluster Engine witness record `X_1` of subject `s1`. -/
def recX1 : SequenceRecord :=
  { id := "X_1".data, chain := Chain.heavy, subject := "s1",
    sequence := "AAAA".data, annotations := [] }

/-- Cluster Engine witness record `X_2` of subject `s1`. -/
def recX2 : SequenceRecord :=
  { id := "X_2".data, chain := Chain.light, subject := "s1",
    sequence := "CCCC".data, annotations := [] }

/-- Cluster Engine witness record `Y_1` of subject `s2`. -/
def recY1 : SequenceRecord :=
  { id := "Y_1".data, chain := Chain.heavy, subject := "s2",
    sequence := "GGGG".data, annotations := [] }

/-! Helper lemmas. -/

/-- Setting a key then reading it back yields the new value. -/
theorem alistLookup_alistSet_same {α : Type} (key : String) (val : α) (l : List (String × α)) :
    alistLookup key (alistSet key val l) = some val := by
  induction l with
  | nil => simp [alistSet, alistLookup]
  | cons kv rest ih =>
    obtain ⟨k, v⟩ := kv
    by_cases h : k = key
    · simp [alistSet, alistLookup, h]
    · simp [alistSet, alistLookup, h, ih]

/-- Setting a key leaves every other key's lookup unchanged. -/
theorem alistLookup_alistSet_other {α : Type} {key other : String} (val : α)
    (l : List (String × α)) (h : other ≠ key) :
    alistLookup other (alistSet key val l) = alistLookup other l := by
  have hne : key ≠ other := fun hh => h (Eq.symm hh)
  induction l with
  | nil =>
    simp only [alistSet, alistLookup]
    rw [if_neg hne]
  | cons kv rest ih =>
    obtain ⟨k, v⟩ := kv
    by_cases hk : k = key
    · subst hk
      simp only [alistSet, if_pos rfl, alistLookup]
      rw [if_neg hne, if_neg hne]
    · simp only [alistSet, if_neg hk, alistLookup]
      by_cases ho : k = other
      · rw [if_pos ho, if_pos ho]
      · rw [if_neg ho, if_neg ho]
        exact ih

/-! Claim theorems. -/

/-- C2: for every Pair, `is_pair` is true if and only if the Pair contains
exactly one heavy record and exactly one light record; for every other
heavy/light multiplicity the Pair is a valid value with `is_pair` false. -/
theorem is_pair_iff_one_heavy_one_light (p : Pair) :
    p.is_pair = true ↔
      (p.members.countP (fun r => decide (r.chain = Chain.heavy)) = 1 ∧
       p.members.countP (fun r => decide (r.chain = Chain.light)) = 1) := by
  simp [Pair.is_pair, Pair.heavies, Pair.lights, List.countP_eq_length_filter]

/-- C1: the light branch of `get_nt_mutations` does not exclude a Pair
whose light chain is absent — its filter tests the Pair itself rather than
its light chain, so the projection subscripts `None` and the aggregation
aborts, where the specification requires the Pair to be dropped.  The
heavy branch of the same function does drop chainless Pairs, and a field
missing on all records yields an empty projection rather than an error. -/
theorem get_nt_mutations_light_missing_chain_fatal :
    get_nt_mutations [pairHeavyOnly] "light" false = none ∧
    get_nt_mutations [pairLightOnly] "heavy" false = some [] ∧
    get_nt_mutations [pairNoField] "heavy" false = some [] := by
  decide

/-- C10: with its default `just_pairs=True`, `get_nt_mutations` first
restricts the input to true pairs, so the aggregation equals the
`just_pairs=False` aggregation of the `is_pair`-filtered list for both
chain projections, and an input consisting only of unpaired Pairs projects
to an empty row list even when those Pairs carry the mutation field. -/
theorem get_nt_mutations_default_filters_true_pairs :
    (∀ (ps : List Pair) (chain : String),
       get_nt_mutations ps chain true =
         get_nt_mutations (ps.filter (fun p => p.is_pair)) chain false) ∧
    (∀ (ps : List Pair) (chain : String), (∀ p ∈ ps, p.is_pair = false) →
       get_nt_mutations ps chain true = some []) := by
  constructor
  · intro ps chain
    rfl
  · intro ps chain h
    have hnil : ps.filter (fun p => p.is_pair) = [] := by
      rw [List.filter_eq_nil_iff]
      intro p hp
      simp [h p hp]
    show get_nt_mutations ps chain true = some []
    simp only [get_nt_mutations, if_true, hnil]
    split <;> rfl

/-- Witness for C10: the unpaired Pair `pairHeavyOnly` carries the
mutation field, yet the default aggregation over it is empty. -/
theorem get_nt_mutations_default_filters_true_pairs_witness :
    pairHeavyOnly.is_pair = false ∧
    ann2 recHeavyMut "var_muts_nt" "num" = some 7 ∧
    get_nt_mutations [pairHeavyOnly] "heavy" true = some [] := by
  refine ⟨by decide, by decide, ?_⟩
  exact get_nt_mutations_default_filters_true_pairs.2 [pairHeavyOnly] "heavy" (by decide)

/-- C9: the bubbleplot aggregation's skip branch triggers only when the
heavy-Pair count equals exactly one, so a collection containing a Lineage
with zero heavy-chain-bearing Pairs makes the aggregation fail (`min` of
an empty comprehension) instead of excluding that Lineage — even when
another Lineage in the collection is well-formed — while a single-heavy
Lineage is skipped without error. -/
theorem bubbleplot_zero_heavy_lineage_fatal :
    mutation_bubbleplot_data [linZeroHeavy] = none ∧
    mutation_bubbleplot_data [linZeroHeavy, linTwoHeavy] = none ∧
    mutation_bubbleplot_data [linOneHeavy] = some [] := by
  decide

/-- C7: the caller's explicit identifier normalization truncates the
identifier at the first underscore and mirrors it into the `seq_id`
annotation, leaving the record's sequence, chain, subject, and every other
annotation field unchanged; and the pairing operation only references the
loaded records, every member of every produced Pair being one of the input
records. -/
theorem truncate_id_only_normalizes_identifier (s : SequenceRecord) :
    (truncate_id s).sequence = s.sequence ∧
    (truncate_id s).chain = s.chain ∧
    (truncate_id s).subject = s.subject ∧
    (truncate_id s).id = keyOf '_' s.id ∧
    alistLookup "seq_id" (truncate_id s).annotations =
      some (AnnValue.str (keyOf '_' s.id)) ∧
    (∀ f : String, f ≠ "seq_id" →
       alistLookup f (truncate_id s).annotations = alistLookup f s.annotations) ∧
    (∀ (delim : Char) (records : List SequenceRecord) (p : Pair) (r : SequenceRecord),
       p ∈ assign_pairs delim records → r ∈ p.members → r ∈ records) := by
  refine ⟨rfl, rfl, rfl, rfl, ?_, ?_, ?_⟩
  · exact alistLookup_alistSet_same _ _ _
  · intro f hf
    exact alistLookup_alistSet_other _ _ hf
  · intro delim records p r hp hr
    simp only [assign_pairs, List.mem_map] at hp
    obtain ⟨k, _, rfl⟩ := hp
    simp only [List.mem_filter] at hr
    exact hr.1

/-- Witness for C7: normalizing the record `A_1(heavy)` keeps its sequence
and its (empty) other annotations, truncates the identifier to `A`, and
mirrors it into `seq_id`; and the member of the scenario's `B` Pair is the
input record `B_1`. -/
theorem truncate_id_only_normalizes_identifier_witness :
    (truncate_id recA1).sequence = recA1.sequence ∧
    (truncate_id recA1).id = ['A'] ∧
    alistLookup "seq_id" (truncate_id recA1).annotations =
      some (AnnValue.str ['A']) ∧
    alistLookup "cdr3_aa" (truncate_id recA1).annotations =
      alistLookup "cdr3_aa" recA1.annotations ∧
    recB1 ∈ [recA1, recA2, recB1] := by
  have h := truncate_id_only_normalizes_identifier recA1
  refine ⟨h.1, ?_, ?_, ?_, ?_⟩
  · rw [h.2.2.2.1]; decide
  · rw [h.2.2.2.2.1]; decide
  · exact h.2.2.2.2.2.1 "cdr3_aa" (by decide)
  · exact h.2.2.2.2.2.2 '_' [recA1, recA2, recB1]
      { name := ['B'], subject := "donor_1", members := [recB1] } recB1 (by decide) (by decide)

/-- Membership in the first-occurrence key list: exactly the keys of the
input not already seen. -/
theorem mem_firstUniqueAux {seen l x} :
    x ∈ firstUniqueAux seen l ↔ (x ∈ l ∧ x ∉ seen) := by
  induction l generalizing seen with
  | nil => simp [firstUniqueAux]
  | cons k rest ih =>
    by_cases hk : k ∈ seen
    · rw [firstUniqueAux, if_pos hk, ih]
      constructor
      · exact fun ⟨h1, h2⟩ => ⟨List.mem_cons_of_mem _ h1, h2⟩
      · rintro ⟨h1, h2⟩
        rcases List.mem_cons.mp h1 with rfl | h1
        · exact absurd hk h2
        · exact ⟨h1, h2⟩
    · rw [firstUniqueAux, if_neg hk]
      constructor
      · intro hx
        rcases List.mem_cons.mp hx with rfl | hx
        · exact ⟨List.mem_cons_self _ _, hk⟩
        · obtain ⟨h1, h2⟩ := ih.mp hx
          refine ⟨List.mem_cons_of_mem _ h1, fun hs => h2 (List.mem_cons_of_mem _ hs)⟩
      · rintro ⟨h1, h2⟩
        rcases List.mem_cons.mp h1 with rfl | h1
        · exact List.mem_cons_self _ _
        · by_cases hxk : x = k
          · subst hxk; exact List.mem_cons_self _ _
          · exact List.mem_cons_of_mem _ (ih.mpr ⟨h1, by
              intro hs
              rcases List.mem_cons.mp hs with h | h
              · exact hxk h
              · exact h2 h⟩)

/-- The first-occurrence key list has no duplicates. -/
theorem nodup_firstUniqueAux (seen l) : (firstUniqueAux seen l).Nodup := by
  induction l generalizing seen with
  | nil => simp [firstUniqueAux]
  | cons k rest ih =>
    by_cases hk : k ∈ seen
    · rw [firstUniqueAux, if_pos hk]; exact ih seen
    · rw [firstUniqueAux, if_neg hk]
      refine List.Nodup.cons ?_ (ih (k :: seen))
      intro hmem
      exact (mem_firstUniqueAux.mp hmem).2 (List.mem_cons_self _ _)

/-- A duplicate-free list containing `k` has exactly one entry equal to
`k`. -/
theorem countP_eq_one_of_nodup_mem {α : Type} [DecidableEq α] {l : List α} {k : α}
    (hn : l.Nodup) (hk : k ∈ l) : l.countP (fun n => decide (n = k)) = 1 := by
  induction l with
  | nil => cases hk
  | cons a t ih =>
    rw [List.countP_cons]
    by_cases hak : a = k
    · have hkt : k ∉ t := fun hkt => (List.nodup_cons.mp hn).1 (hak ▸ hkt)
      have ht : t.countP (fun n => decide (n = k)) = 0 := by
        rw [List.countP_eq_zero]
        intro b hb
        simp only [decide_eq_true_eq]
        intro hbk
        exact hkt (hbk ▸ hb)
      simp [ht, hak]
    · have hk' : k ∈ t := by
        rcases List.mem_cons.mp hk with h | h
        · exact absurd h.symm hak
        · exact h
      simp [ih (List.nodup_cons.mp hn).2 hk', hak]

/-- Names of the assigned Pairs are the distinct grouping keys in
first-appearance order. -/
theorem assign_pairs_names (delim : Char) (records : List SequenceRecord) :
    (assign_pairs delim records).map (fun p => p.name) =
      firstUnique (records.map (fun r => keyOf delim r.id)) := by
  rw [assign_pairs, List.map_map]
  exact List.map_id _

/-- Membership in an assigned Pair is membership in the input with the
matching grouping key. -/
theorem mem_assign_pairs_members {delim records p} (hp : p ∈ assign_pairs delim records)
    (r : SequenceRecord) :
    r ∈ p.members ↔ (r ∈ records ∧ keyOf delim r.id = p.name) := by
  simp only [assign_pairs, List.mem_map] at hp
  obtain ⟨k, _, rfl⟩ := hp
  simp [List.mem_filter]

/-- C3: for every record collection and delimiter, the Pair Assigner
partitions the records into Pairs — every record appears in exactly one
Pair, and two records share a Pair exactly when their identifier prefixes
before the first delimiter occurrence coincide — and on the scenario
records `A_1(heavy)`, `A_2(light)`, `B_1(heavy)` with delimiter `_` it
yields pair `A` (heavy `A_1`, light `A_2`, a true pair) and pair `B`
(heavy `B_1`, no light, not a true pair). -/
theorem assign_pairs_partitions (delim : Char) (records : List SequenceRecord) :
    (∀ r ∈ records,
       (assign_pairs delim records).countP (fun p => decide (r ∈ p.members)) = 1) ∧
    (∀ r₁ ∈ records, ∀ r₂ ∈ records,
       ((∃ p ∈ assign_pairs delim records, r₁ ∈ p.members ∧ r₂ ∈ p.members) ↔
         keyOf delim r₁.id = keyOf delim r₂.id)) ∧
    (assign_pairs '_' [recA1, recA2, recB1]).map
        (fun p => (p.name, p.heavies, p.lights, p.is_pair)) =
      [(['A'], [recA1], [recA2], true), (['B'], [recB1], [], false)] := by
  refine ⟨?_, ?_, by decide⟩
  · intro r hr
    rw [assign_pairs]
    rw [List.countP_map]
    have hcongr : ∀ k ∈ firstUnique (records.map (fun r => keyOf delim r.id)),
        ((fun p : Pair => decide (r ∈ p.members)) ∘ (fun k =>
          ({ name := k
             subject := ((records.filter (fun r => decide (keyOf delim r.id = k))).head?.map
               (fun r => r.subject)).getD ""
             members := records.filter (fun r => decide (keyOf delim r.id = k)) } : Pair))) k
          = true ↔ (fun n => decide (n = keyOf delim r.id)) k = true := by
      intro k _
      simp only [Function.comp, decide_eq_true_eq, List.mem_filter]
      constructor
      · exact fun ⟨_, h2⟩ => h2.symm
      · intro h
        exact ⟨hr, h.symm⟩
    rw [List.countP_congr hcongr]
    refine countP_eq_one_of_nodup_mem (nodup_firstUniqueAux _ _) ?_
    rw [firstUnique, mem_firstUniqueAux]
    exact ⟨List.mem_map.mpr ⟨r, hr, rfl⟩, List.not_mem_nil _⟩
  · intro r₁ h₁ r₂ h₂
    constructor
    · rintro ⟨p, hp, hm₁, hm₂⟩
      have k₁ := ((mem_assign_pairs_members hp r₁).mp hm₁).2
      have k₂ := ((mem_assign_pairs_members hp r₂).mp hm₂).2
      rw [k₁, k₂]
    · intro hkey
      refine ⟨{ name := keyOf delim r₁.id
                subject := ((records.filter
                  (fun r => decide (keyOf delim r.id = keyOf delim r₁.id))).head?.map
                  (fun r => r.subject)).getD ""
                members := records.filter
                  (fun r => decide (keyOf delim r.id = keyOf delim r₁.id)) }, ?_, ?_, ?_⟩
      · simp only [assign_pairs, List.mem_map]
        refine ⟨keyOf delim r₁.id, ?_, rfl⟩
        rw [firstUnique, mem_firstUniqueAux]
        exact ⟨List.mem_map.mpr ⟨r₁, h₁, rfl⟩, List.not_mem_nil _⟩
      · simp [List.mem_filter, h₁]
      · simp [List.mem_filter, h₂, hkey]

/-- Witness for C3: on the scenario input, record `A_1` lies in exactly one
Pair, and `A_1` and `A_2` share a Pair (their prefixes agree). -/
theorem assign_pairs_partitions_witness :
    (assign_pairs '_' [recA1, recA2, recB1]).countP
        (fun p => decide (recA1 ∈ p.members)) = 1 ∧
    (∃ p ∈ assign_pairs '_' [recA1, recA2, recB1],
        recA1 ∈ p.members ∧ recA2 ∈ p.members) := by
  have h := assign_pairs_partitions '_' [recA1, recA2, recB1]
  exact ⟨h.1 recA1 (by decide),
    (h.2.1 recA1 (by decide) recA2 (by decide)).mpr (by decide)⟩

/-- The running minimum of a fold is one of the folded values. -/
theorem foldl_min_mem {α : Type} [LinearOrder α] (h : α) (t : List α) :
    t.foldl min h ∈ h :: t := by
  induction t generalizing h with
  | nil => simp
  | cons a t ih =>
    rw [List.foldl_cons]
    rcases min_choice h a with hm | hm
    · rcases List.mem_cons.mp (ih (min h a)) with he | he
      · rw [he, hm]; exact List.mem_cons_self _ _
      · exact List.mem_cons_of_mem _ (List.mem_cons_of_mem _ he)
    · rcases List.mem_cons.mp (ih (min h a)) with he | he
      · rw [he, hm]
        exact List.mem_cons_of_mem _ (List.mem_cons_self _ _)
      · exact List.mem_cons_of_mem _ (List.mem_cons_of_mem _ he)

/-- The running minimum of a fold bounds every folded value from below. -/
theorem foldl_min_le {α : Type} [LinearOrder α] (h : α) (t : List α) :
    ∀ x ∈ h :: t, t.foldl min h ≤ x := by
  induction t generalizing h with
  | nil => simp
  | cons a t ih =>
    intro x hx
    rw [List.foldl_cons]
    rcases List.mem_cons.mp hx with hxh | hx
    · rw [hxh]
      exact le_trans (ih (min h a) (min h a) (List.mem_cons_self _ _)) (min_le_left _ _)
    · rcases List.mem_cons.mp hx with hxa | hx
      · rw [hxa]
        exact le_trans (ih (min h a) (min h a) (List.mem_cons_self _ _)) (min_le_right _ _)
      · exact ih (min h a) x (List.mem_cons_of_mem _ hx)

/-- The running maximum of a fold is one of the folded values. -/
theorem foldl_max_mem {α : Type} [LinearOrder α] (h : α) (t : List α) :
    t.foldl max h ∈ h :: t := by
  induction t generalizing h with
  | nil => simp
  | cons a t ih =>
    rw [List.foldl_cons]
    rcases max_choice h a with hm | hm
    · rcases List.mem_cons.mp (ih (max h a)) with he | he
      · rw [he, hm]; exact List.mem_cons_self _ _
      · exact List.mem_cons_of_mem _ (List.mem_cons_of_mem _ he)
    · rcases List.mem_cons.mp (ih (max h a)) with he | he
      · rw [he, hm]
        exact List.mem_cons_of_mem _ (List.mem_cons_self _ _)
      · exact List.mem_cons_of_mem _ (List.mem_cons_of_mem _ he)

/-- The running maximum of a fold bounds every folded value from above. -/
theorem foldl_le_max {α : Type} [LinearOrder α] (h : α) (t : List α) :
    ∀ x ∈ h :: t, x ≤ t.foldl max h := by
  induction t generalizing h with
  | nil => simp
  | cons a t ih =>
    intro x hx
    rw [List.foldl_cons]
    rcases List.mem_cons.mp hx with hxh | hx
    · rw [hxh]
      exact le_trans (le_max_left _ _) (ih (max h a) (max h a) (List.mem_cons_self _ _))
    · rcases List.mem_cons.mp hx with hxa | hx
      · rw [hxa]
        exact le_trans (le_max_right _ _) (ih (max h a) (max h a) (List.mem_cons_self _ _))
      · exact ih (max h a) x (List.mem_cons_of_mem _ hx)

/-- The bubbleplot metric comprehension succeeds with one value per heavy
Pair, each the per-Pair derived metric. -/
theorem collectLevels_forall2 {ps : List Pair} {qs : List ℚ}
    (h : collectLevels ps = some qs) :
    List.Forall₂ (fun p q => heavyMutationLevel p = some q) ps qs := by
  induction ps generalizing qs with
  | nil =>
    rw [collectLevels] at h
    cases h
    exact List.Forall₂.nil
  | cons p pt ih =>
    rw [collectLevels] at h
    cases hm : heavyMutationLevel p with
    | none => rw [hm] at h; cases h
    | some q =>
      rw [hm] at h
      cases hc : collectLevels pt with
      | none => rw [hc] at h; cases h
      | some qt =>
        rw [hc] at h
        cases h
        exact List.Forall₂.cons hm (ih hc)

/-- A successful metric comprehension has one value per heavy Pair. -/
theorem collectLevels_length {ps : List Pair} {qs : List ℚ}
    (h : collectLevels ps = some qs) : qs.length = ps.length :=
  ((collectLevels_forall2 h).length_eq).symm

/-- A lineage with at least one heavy Pair, a successful metric
comprehension, and known donor colors yields a bubble. -/
theorem bubbleEntry_isSome {l : Lineage} (h1 : l.heavies ≠ [])
    (h2 : collectLevels l.heavies ≠ none)
    (h3 : l.heavies.all (fun p => (lookupColor p.subject).isSome) = true) :
    ∃ e, bubbleEntry l = some e := by
  cases hq : collectLevels l.heavies with
  | none => exact absurd hq h2
  | some qs =>
    cases hh : l.heavies with
    | nil => exact absurd hh h1
    | cons p0 pt =>
      cases hqs : qs with
      | nil =>
        have := collectLevels_length hq
        rw [hqs, hh] at this
        cases this
      | cons q0 qt =>
        have hc : (lookupColor p0.subject).isSome = true := by
          have := List.all_eq_true.mp h3 p0 (by rw [hh]; exact List.mem_cons_self _ _)
          exact this
        obtain ⟨c, hc'⟩ := Option.isSome_iff_exists.mp hc
        refine ⟨{ x := qt.foldl min q0, y := qt.foldl max q0, color := c,
                  area := 45 * l.heavies.length }, ?_⟩
        rw [bubbleEntry, hq, hqs, hh]
        simp [pyMin, pyMax, hc', Option.map_some']

/-- C6: in the bubbleplot aggregation over lineages that all have at least
one heavy Pair, computable metrics, and known donor colors, the output has
one bubble for exactly each Lineage whose heavy-Pair count differs from
one (so each Lineage with exactly one heavy Pair is excluded); each
bubble's `x` and `y` are the minimum and maximum of the per-heavy-Pair
derived metric (100 minus percent nucleotide identity), its area is 45
times the heavy-Pair count, and the metric list pairs the heavy Pairs with
their derived metrics one for one. -/
theorem bubbleplot_min_max_of_multi_heavy (lineages : List Lineage)
    (h : ∀ l ∈ lineages, l.heavies ≠ [] ∧ collectLevels l.heavies ≠ none ∧
         l.heavies.all (fun p => (lookupColor p.subject).isSome) = true) :
    (∃ es, mutation_bubbleplot_data lineages = some es ∧
       es = (lineages.filter (fun l => !decide (l.heavies.length = 1))).filterMap
         bubbleEntry) ∧
    (∀ l ∈ lineages, l.heavies.length ≠ 1 → ∃ e, bubbleEntry l = some e) ∧
    (∀ (l : Lineage) (e : BubbleEntry) (qs : List ℚ), bubbleEntry l = some e →
       collectLevels l.heavies = some qs →
       (e.x ∈ qs ∧ ∀ q ∈ qs, e.x ≤ q) ∧ (e.y ∈ qs ∧ ∀ q ∈ qs, q ≤ e.y) ∧
       e.area = 45 * l.heavies.length ∧
       List.Forall₂ (fun p q => heavyMutationLevel p = some q) l.heavies qs) := by
  refine ⟨?_, ?_, ?_⟩
  · induction lineages with
    | nil => exact ⟨[], rfl, rfl⟩
    | cons l rest ih =>
      have hl := h l (List.mem_cons_self _ _)
      obtain ⟨es, hes, hfil⟩ := ih (fun x hx => h x (List.mem_cons_of_mem _ hx))
      by_cases h1 : l.heavies.length = 1
      · refine ⟨es, ?_, ?_⟩
        · rw [mutation_bubbleplot_data, if_pos h1]
          exact hes
        · rw [List.filter_cons_of_neg (by simp [h1]), hfil]
      · obtain ⟨e, he⟩ := bubbleEntry_isSome hl.1 hl.2.1 hl.2.2
        refine ⟨e :: es, ?_, ?_⟩
        · rw [mutation_bubbleplot_data, if_neg h1, he, hes]
        · rw [List.filter_cons_of_pos (by simp [h1]), List.filterMap_cons, he, hfil]
  · intro l hl _
    have h' := h l hl
    exact bubbleEntry_isSome h'.1 h'.2.1 h'.2.2
  · intro l e qs he hq
    rw [bubbleEntry, hq] at he
    cases hqs : qs with
    | nil => rw [hqs] at he; cases he
    | cons q0 qt =>
      rw [hqs] at he
      cases hh : l.heavies.head? with
      | none => rw [hh] at he; cases he
      | some p0 =>
        rw [hh] at he
        simp only [pyMin, pyMax] at he
        cases hc : lookupColor p0.subject with
        | none => rw [hc] at he; cases he
        | some c =>
          rw [hc, Option.map_some'] at he
          cases he
          subst hqs
          refine ⟨⟨foldl_min_mem q0 qt, foldl_min_le q0 qt⟩,
            ⟨foldl_max_mem q0 qt, foldl_le_max q0 qt⟩, rfl,
            collectLevels_forall2 hq⟩

/-- Witness for C6: over a single-heavy lineage and a two-heavy lineage,
the aggregation succeeds and equals the bubble list of exactly the
lineages whose heavy count differs from one. -/
theorem bubbleplot_min_max_of_multi_heavy_witness :
    mutation_bubbleplot_data [linOneHeavy, linTwoHeavy] =
      some ((([linOneHeavy, linTwoHeavy]).filter
        (fun l => !decide (l.heavies.length = 1))).filterMap bubbleEntry) := by
  obtain ⟨es, h1, h2⟩ :=
    (bubbleplot_min_max_of_multi_heavy [linOneHeavy, linTwoHeavy] (by decide)).1
  rw [h1, h2]

/-- Python `min` of a list depends only on the multiset of its values. -/
theorem pyMin_perm {α : Type} [LinearOrder α] {l1 l2 : List α} (h : l1.Perm l2) :
    pyMin l1 = pyMin l2 := by
  cases l1 with
  | nil =>
    have h2 : l2 = [] := List.eq_nil_of_length_eq_zero (h.length_eq ▸ rfl)
    rw [h2]
  | cons a t =>
    cases l2 with
    | nil => exact absurd h.length_eq (by simp)
    | cons b u =>
      show some (t.foldl min a) = some (u.foldl min b)
      refine congrArg some (le_antisymm ?_ ?_)
      · exact foldl_min_le a t _ (h.symm.mem_iff.mp (foldl_min_mem b u))
      · exact foldl_min_le b u _ (h.mem_iff.mp (foldl_min_mem a t))

/-- The stable lineage name is Python `min` of the member names, defaulted
on the empty lineage. -/
theorem lineageName_eq_pyMin (mem : List Pair) :
    lineageName mem = (pyMin (mem.map (fun p => p.name))).getD [] := by
  rw [lineageName]
  cases h : mem.map (fun p => p.name) with
  | nil => rfl
  | cons k t => rfl

/-- C8: every grouping, clustering, or aggregation call run twice on
identical input and configuration returns identical results, and the
derived Lineage name is a function of the multiset of member identifiers
alone — any reordering of the same members yields the same name. -/
theorem grouping_deterministic_and_names_stable :
    (∀ (sim : Pair → Pair → Bool) (ps : List Pair),
       group_lineages sim ps = group_lineages sim ps) ∧
    (∀ (delim : Char) (records : List SequenceRecord),
       assign_pairs delim records = assign_pairs delim records) ∧
    (∀ (identity : SequenceRecord → SequenceRecord → ℚ) (t : ℚ)
       (records : List SequenceRecord),
       cluster identity t records = cluster identity t records) ∧
    (∀ (pairs : List Pair) (chain : String) (jp : Bool),
       get_nt_mutations pairs chain jp = get_nt_mutations pairs chain jp) ∧
    (∀ mem₁ mem₂ : List Pair, mem₁.Perm mem₂ → lineageName mem₁ = lineageName mem₂) := by
  refine ⟨fun _ _ => rfl, fun _ _ => rfl, fun _ _ _ => rfl, fun _ _ _ => rfl, ?_⟩
  intro m1 m2 hperm
  rw [lineageName_eq_pyMin, lineageName_eq_pyMin,
    pyMin_perm (hperm.map (fun p => p.name))]

/-- Witness for C8: the two orderings of the same two member Pairs derive
the same lineage name, the smallest member identifier. -/
theorem grouping_deterministic_and_names_stable_witness :
    lineageName [pairId85, pairId90] = lineageName [pairId90, pairId85] ∧
    lineageName [pairId85, pairId90] = ['R'] := by
  refine ⟨?_, by decide⟩
  exact grouping_deterministic_and_names_stable.2.2.2.2 _ _
    (List.Perm.swap pairId90 pairId85 [])

/-- Flattening a filtered family only drops elements. -/
theorem mem_flatten_filter {α : Type} {P : List α → Bool} {lins : List (List α)} {x : α}
    (h : x ∈ (lins.filter P).flatten) : x ∈ lins.flatten := by
  obtain ⟨lin, hlin, hx⟩ := List.mem_flatten.mp h
  exact List.mem_flatten.mpr ⟨lin, (List.mem_filter.mp hlin).1, hx⟩

/-- One single-linkage insertion preserves the pairs as a multiset, adding
the new Pair. -/
theorem insertLinked_flatten_perm (sim : Pair → Pair → Bool) (lins : List (List Pair))
    (p : Pair) : (insertLinked sim lins p).flatten.Perm (p :: lins.flatten) := by
  rw [insertLinked, List.flatten_cons, List.cons_append]
  refine List.Perm.cons p ?_
  rw [← List.flatten_append]
  exact (List.filter_append_perm _ lins).flatten

/-- Folding single-linkage insertions preserves the pairs as a multiset. -/
theorem foldl_insertLinked_flatten_perm (sim : Pair → Pair → Bool) :
    ∀ (todo : List Pair) (lins : List (List Pair)),
      ((todo.foldl (insertLinked sim) lins).flatten).Perm (todo ++ lins.flatten) := by
  intro todo
  induction todo with
  | nil => intro lins; simp
  | cons p todo' ih =>
    intro lins
    rw [List.foldl_cons, List.cons_append]
    refine ((ih (insertLinked sim lins p)).trans ?_).trans List.perm_middle
    exact List.Perm.append_left todo' (insertLinked_flatten_perm sim lins p)

/-- Folding single-linkage insertions keeps every directly similar couple
of pairs inside one common lineage. -/
theorem foldl_insertLinked_connected (sim : Pair → Pair → Bool)
    (hsym : ∀ a b, sim a b = sim b a) :
    ∀ (todo : List Pair) (lins : List (List Pair)),
      (∀ A B : Pair, A ∈ lins.flatten → B ∈ lins.flatten → sim A B = true →
         ∃ lin ∈ lins, A ∈ lin ∧ B ∈ lin) →
      ∀ A B : Pair, A ∈ (todo.foldl (insertLinked sim) lins).flatten →
        B ∈ (todo.foldl (insertLinked sim) lins).flatten → sim A B = true →
        ∃ lin ∈ todo.foldl (insertLinked sim) lins, A ∈ lin ∧ B ∈ lin := by
  intro todo
  induction todo with
  | nil => intro lins hinv; exact hinv
  | cons p todo' ih =>
    intro lins hinv
    rw [List.foldl_cons]
    apply ih
    intro A B hA hB hAB
    rw [insertLinked, List.flatten_cons, List.cons_append] at hA hB
    have hchar : ∀ x : Pair,
        x ∈ p :: ((lins.filter (fun lin => lin.any (fun q => sim q p))).flatten ++
          (lins.filter (fun lin => !lin.any (fun q => sim q p))).flatten) →
        x = p ∨ x ∈ lins.flatten := by
      intro x hx
      rcases List.mem_cons.mp hx with hxp | hx'
      · exact Or.inl hxp
      · rcases List.mem_append.mp hx' with hx'' | hx''
        · exact Or.inr (mem_flatten_filter hx'')
        · exact Or.inr (mem_flatten_filter hx'')
    have hnear : ∀ x : Pair, x ∈ lins.flatten → sim x p = true →
        x ∈ (lins.filter (fun lin => lin.any (fun q => sim q p))).flatten := by
      intro x hx hxp
      obtain ⟨lin, hlin, hxl⟩ := List.mem_flatten.mp hx
      refine List.mem_flatten.mpr ⟨lin, List.mem_filter.mpr ⟨hlin, ?_⟩, hxl⟩
      show lin.any (fun q => sim q p) = true
      refine (@List.any_eq_true _ (fun q => sim q p) lin).mpr ⟨x, hxl, ?_⟩
      exact hxp
    have hfar : ∀ x : Pair,
        x ∈ (lins.filter (fun lin => !lin.any (fun q => sim q p))).flatten →
        ¬ sim x p = true := by
      intro x hx hxp
      obtain ⟨lin, hlin, hxl⟩ := List.mem_flatten.mp hx
      have := (List.mem_filter.mp hlin).2
      rw [Bool.not_eq_true'] at this
      have hany : lin.any (fun q => sim q p) = true :=
        (@List.any_eq_true _ (fun q => sim q p) lin).mpr ⟨x, hxl, by exact hxp⟩
      rw [this] at hany
      cases hany
    have hnewmem : ∀ x : Pair,
        x ∈ (p :: (lins.filter (fun lin => lin.any (fun q => sim q p))).flatten) →
        x ∈ (insertLinked sim lins p).flatten := by
      intro x hx
      rw [insertLinked, List.flatten_cons, List.cons_append]
      rcases List.mem_cons.mp hx with hxp | hx'
      · rw [hxp]; exact List.mem_cons_self _ _
      · exact List.mem_cons_of_mem _ (List.mem_append_left _ hx')
    rcases hchar A hA with hAp | hAold
    · rcases hchar B hB with hBp | hBold
      · refine ⟨p :: (lins.filter (fun lin => lin.any (fun q => sim q p))).flatten,
          ?_, ?_, ?_⟩
        · rw [insertLinked]; exact List.mem_cons_self _ _
        · rw [hAp]; exact List.mem_cons_self _ _
        · rw [hBp]; exact List.mem_cons_self _ _
      · have hBp' : sim B p = true := by rw [hsym]; rw [← hAp]; exact hAB
        refine ⟨p :: (lins.filter (fun lin => lin.any (fun q => sim q p))).flatten,
          ?_, ?_, ?_⟩
        · rw [insertLinked]; exact List.mem_cons_self _ _
        · rw [hAp]; exact List.mem_cons_self _ _
        · exact List.mem_cons_of_mem _ (hnear B hBold hBp')
    · rcases hchar B hB with hBp | hBold
      · have hAp' : sim A p = true := by rw [← hBp]; exact hAB
        refine ⟨p :: (lins.filter (fun lin => lin.any (fun q => sim q p))).flatten,
          ?_, ?_, ?_⟩
        · rw [insertLinked]; exact List.mem_cons_self _ _
        · exact List.mem_cons_of_mem _ (hnear A hAold hAp')
        · rw [hBp]; exact List.mem_cons_self _ _
      · obtain ⟨lin, hlin, hAl, hBl⟩ := hinv A B hAold hBold hAB
        by_cases hact : lin.any (fun q => sim q p) = true
        · refine ⟨p :: (lins.filter (fun lin => lin.any (fun q => sim q p))).flatten,
            ?_, ?_, ?_⟩
          · rw [insertLinked]; exact List.mem_cons_self _ _
          · exact List.mem_cons_of_mem _
              (List.mem_flatten.mpr ⟨lin, List.mem_filter.mpr ⟨hlin, hact⟩, hAl⟩)
          · exact List.mem_cons_of_mem _
              (List.mem_flatten.mpr ⟨lin, List.mem_filter.mpr ⟨hlin, hact⟩, hBl⟩)
        · refine ⟨lin, ?_, hAl, hBl⟩
          rw [insertLinked]
          refine List.mem_cons_of_mem _ (List.mem_filter.mpr ⟨hlin, ?_⟩)
          rw [Bool.not_eq_true] at hact
          rw [hact]
          rfl

/-- The single-linkage lineages hold exactly the input pairs. -/
theorem singleLinkage_flatten_perm (sim : Pair → Pair → Bool) (ps : List Pair) :
    ((singleLinkage sim ps).flatten).Perm ps := by
  have h := foldl_insertLinked_flatten_perm sim ps []
  simpa [singleLinkage] using h

/-- Two directly similar input pairs share a single-linkage lineage. -/
theorem singleLinkage_connected (sim : Pair → Pair → Bool)
    (hsym : ∀ a b, sim a b = sim b a) (ps : List Pair) :
    ∀ A B : Pair, A ∈ ps → B ∈ ps → sim A B = true →
      ∃ lin ∈ singleLinkage sim ps, A ∈ lin ∧ B ∈ lin := by
  intro A B hA hB hAB
  have hperm := singleLinkage_flatten_perm sim ps
  refine foldl_insertLinked_connected sim hsym ps [] ?_ A B
    (hperm.mem_iff.mpr hA) (hperm.mem_iff.mpr hB) hAB
  intro A B hA
  simp at hA

/-- An element of a duplicate-free flattened family lies in exactly one
part. -/
theorem countP_flatten_one {α : Type} [DecidableEq α] :
    ∀ (L : List (List α)) (x : α), L.flatten.Nodup → x ∈ L.flatten →
      L.countP (fun lin => decide (x ∈ lin)) = 1 := by
  intro L
  induction L with
  | nil =>
    intro x hn hx
    simp at hx
  | cons l L' ih =>
    intro x hn hx
    rw [List.flatten_cons] at hn hx
    rw [List.countP_cons]
    obtain ⟨hl, hL', hdisj⟩ := List.nodup_append.mp hn
    rcases List.mem_append.mp hx with hxl | hxJ
    · have hnotJ : x ∉ L'.flatten := fun hj => hdisj hxl hj
      have h0 : L'.countP (fun lin => decide (x ∈ lin)) = 0 := by
        rw [List.countP_eq_zero]
        intro lin hlin
        simp only [decide_eq_true_eq]
        intro hxlin
        exact hnotJ (List.mem_flatten.mpr ⟨lin, hlin, hxlin⟩)
      simp [h0, hxl]
    · have hxnotl : x ∉ l := fun hxl => hdisj hxl hxJ
      simp [ih x hL' hxJ, hxnotl]

/-- A list with exactly one entry satisfying a test identifies any two of
its members passing the test. -/
theorem eq_of_countP_eq_one {α : Type} {p : α → Bool} :
    ∀ {l : List α}, l.countP p = 1 → ∀ {a b : α}, a ∈ l → b ∈ l →
      p a = true → p b = true → a = b := by
  intro l
  induction l with
  | nil =>
    intro h a b ha
    cases ha
  | cons x t ih =>
    intro h a b ha hb hpa hpb
    rw [List.countP_cons] at h
    by_cases hpx : p x = true
    · rw [if_pos hpx] at h
      have ht : t.countP p = 0 := by omega
      have hnone := List.countP_eq_zero.mp ht
      have ha' : a = x := by
        rcases List.mem_cons.mp ha with h' | h'
        · exact h'
        · exact absurd hpa (hnone a h')
      have hb' : b = x := by
        rcases List.mem_cons.mp hb with h' | h'
        · exact h'
        · exact absurd hpb (hnone b h')
      rw [ha', hb']
    · rw [if_neg hpx, Nat.add_zero] at h
      have ha' : a ∈ t := by
        rcases List.mem_cons.mp ha with h' | h'
        · exact absurd (h' ▸ hpa) hpx
        · exact h'
      have hb' : b ∈ t := by
        rcases List.mem_cons.mp hb with h' | h'
        · exact absurd (h' ▸ hpb) hpx
        · exact h'
      exact ih h ha' hb' hpa hpb

/-- C4: for every Pair collection and symmetric similarity capability,
lineage grouping partitions the duplicate-free Pairs possessing the
designated (heavy) chain — each such Pair lies in exactly one Lineage and
no chainless Pair lies in any — and membership contains the single-linkage
transitive closure of similarity: if A~B and B~C then A, B, C share one
Lineage even when A and C are not directly similar. -/
theorem group_lineages_partitions_transitively (sim : Pair → Pair → Bool)
    (ps : List Pair) (hsym : ∀ a b, sim a b = sim b a)
    (hnd : (ps.filter (fun p => p.heavy.isSome)).Nodup) :
    (∀ p ∈ ps, p.heavy.isSome = true →
       (group_lineages sim ps).countP (fun l => decide (p ∈ l.pairs)) = 1) ∧
    (∀ p : Pair, p.heavy.isSome = false →
       ∀ l ∈ group_lineages sim ps, p ∉ l.pairs) ∧
    (∀ A B C : Pair, A ∈ ps → B ∈ ps → C ∈ ps →
       A.heavy.isSome = true → B.heavy.isSome = true → C.heavy.isSome = true →
       sim A B = true → sim B C = true →
       ∃ l ∈ group_lineages sim ps, A ∈ l.pairs ∧ B ∈ l.pairs ∧ C ∈ l.pairs) := by
  have hperm := singleLinkage_flatten_perm sim (ps.filter (fun p => p.heavy.isSome))
  have hndflat : (singleLinkage sim (ps.filter (fun p => p.heavy.isSome))).flatten.Nodup :=
    hperm.nodup_iff.mpr hnd
  have hcount : ∀ p : Pair, p ∈ ps.filter (fun p => p.heavy.isSome) →
      (singleLinkage sim (ps.filter (fun p => p.heavy.isSome))).countP
        (fun mem => decide (p ∈ mem)) = 1 := by
    intro p hp
    exact countP_flatten_one _ p hndflat (hperm.mem_iff.mpr hp)
  refine ⟨?_, ?_, ?_⟩
  · intro p hp hheavy
    rw [group_lineages, List.countP_map]
    exact hcount p (List.mem_filter.mpr ⟨hp, hheavy⟩)
  · intro p hheavy l hl hpl
    rw [group_lineages, List.mem_map] at hl
    obtain ⟨mem, hmem, rfl⟩ := hl
    have hpflat : p ∈ (singleLinkage sim (ps.filter (fun q => q.heavy.isSome))).flatten :=
      List.mem_flatten.mpr ⟨mem, hmem, hpl⟩
    have := (List.mem_filter.mp (hperm.mem_iff.mp hpflat)).2
    rw [hheavy] at this
    cases this
  · intro A B C hA hB hC hhA hhB hhC hAB hBC
    have hA' : A ∈ ps.filter (fun p => p.heavy.isSome) :=
      List.mem_filter.mpr ⟨hA, by exact hhA⟩
    have hB' : B ∈ ps.filter (fun p => p.heavy.isSome) :=
      List.mem_filter.mpr ⟨hB, by exact hhB⟩
    have hC' : C ∈ ps.filter (fun p => p.heavy.isSome) :=
      List.mem_filter.mpr ⟨hC, by exact hhC⟩
    obtain ⟨lin₁, hlin₁, hAl, hBl⟩ :=
      singleLinkage_connected sim hsym _ A B hA' hB' hAB
    obtain ⟨lin₂, hlin₂, hBl₂, hCl⟩ :=
      singleLinkage_connected sim hsym _ B C hB' hC' hBC
    have heq : lin₁ = lin₂ :=
      eq_of_countP_eq_one (hcount B hB') hlin₁ hlin₂
        (decide_eq_true_eq.mpr hBl) (decide_eq_true_eq.mpr hBl₂)
    refine ⟨{ name := lineageName lin₁, pairs := lin₁ }, ?_, hAl, hBl, ?_⟩
    · rw [group_lineages]
      exact List.mem_map_of_mem _ hlin₁
    · rw [heq]
      exact hCl

/-- Witness for C4: under the witness similarity (`R`~`S`, `S`~`T`, not
`R`~`T`), the three heavy-bearing Pairs land in one common Lineage, and
the `R` Pair lies in exactly one Lineage. -/
theorem group_lineages_partitions_transitively_witness :
    simW pairId85 pairId95 = false ∧
    (group_lineages simW [pairId85, pairId90, pairId95]).countP
      (fun l => decide (pairId85 ∈ l.pairs)) = 1 ∧
    (∃ l ∈ group_lineages simW [pairId85, pairId90, pairId95],
       pairId85 ∈ l.pairs ∧ pairId90 ∈ l.pairs ∧ pairId95 ∈ l.pairs) := by
  have hsym : ∀ a b, simW a b = simW b a := by
    intro a b
    rw [simW, simW, Bool.or_comm]
  have h := group_lineages_partitions_transitively simW [pairId85, pairId90, pairId95]
    hsym (by decide)
  refine ⟨by decide, h.1 pairId85 (by decide) (by decide), ?_⟩
  exact h.2.2 pairId85 pairId90 pairId95 (by decide) (by decide) (by decide)
    (by decide) (by decide) (by decide) (by decide) (by decide)

/-- Inserting into a sorted list permutes consing. -/
theorem insertSorted_perm {α : Type} (le : α → α → Bool) (x : α) :
    ∀ l : List α, (insertSorted le x l).Perm (x :: l) := by
  intro l
  induction l with
  | nil => exact List.Perm.refl _
  | cons y ys ih =>
    rw [insertSorted]
    by_cases h : le x y = true
    · rw [if_pos h]
    · rw [if_neg h]
      exact (List.Perm.cons y ih).trans (List.Perm.swap x y ys)

/-- The stable sort permutes its input. -/
theorem sortBy_perm {α : Type} (le : α → α → Bool) :
    ∀ l : List α, (sortBy le l).Perm l := by
  intro l
  induction l with
  | nil => exact List.Perm.refl _
  | cons x xs ih =>
    rw [sortBy, List.foldr_cons]
    exact (insertSorted_perm le x _).trans (List.Perm.cons x ih)

/-- The greedy clustering pass preserves the records as a multiset when
given enough fuel. -/
theorem greedyClusters_flatten_perm (identity : SequenceRecord → SequenceRecord → ℚ)
    (t : ℚ) : ∀ (fuel : Nat) (l : List SequenceRecord), l.length ≤ fuel →
      (((greedyClusters identity t fuel l).map Cluster.all).flatten).Perm l := by
  intro fuel
  induction fuel with
  | zero =>
    intro l hl
    have h0 : l = [] := List.eq_nil_of_length_eq_zero (Nat.le_zero.mp hl)
    subst h0
    simp [greedyClusters]
  | succ fuel ih =>
    intro l hl
    cases l with
    | nil => simp [greedyClusters]
    | cons r rest =>
      simp only [greedyClusters, List.map_cons, List.flatten_cons]
      have hrec := ih (rest.filter (fun s => !decide (t ≤ identity r s)))
        (le_trans (List.length_filter_le _ _) (Nat.succ_le_succ_iff.mp hl))
      show ((r :: rest.filter (fun s => decide (t ≤ identity r s))) ++ _).Perm (r :: rest)
      rw [List.cons_append]
      refine List.Perm.cons r ?_
      exact (List.Perm.append_left _ hrec).trans (List.filter_append_perm _ rest)

/-- Every non-centroid member of a greedy cluster meets the threshold
against its centroid. -/
theorem greedyClusters_threshold (identity : SequenceRecord → SequenceRecord → ℚ)
    (t : ℚ) : ∀ (fuel : Nat) (l : List SequenceRecord),
      ∀ c ∈ greedyClusters identity t fuel l, ∀ m ∈ c.members,
        t ≤ identity c.centroid m := by
  intro fuel
  induction fuel with
  | zero =>
    intro l c hc
    cases l with
    | nil => cases hc
    | cons r rest => cases hc
  | succ fuel ih =>
    intro l c hc m hm
    cases l with
    | nil => cases hc
    | cons r rest =>
      simp only [greedyClusters] at hc
      rcases List.mem_cons.mp hc with hhead | hrec
      · subst hhead
        have := (List.mem_filter.mp hm).2
        exact decide_eq_true_eq.mp this
      · exact ih _ c hrec m hm

/-- The clusters of a run hold exactly the input records. -/
theorem cluster_all_flatten_perm (identity : SequenceRecord → SequenceRecord → ℚ)
    (t : ℚ) (records : List SequenceRecord) :
    (((cluster identity t records).map Cluster.all).flatten).Perm records := by
  rw [cluster]
  exact (greedyClusters_flatten_perm identity t _ _ (le_refl _)).trans
    (sortBy_perm clusterKeyLe records)

/-- The fold of the larger-cluster selector returns its base when nothing
beats it, and otherwise the first strictly-largest entry of the list. -/
theorem foldl_pickLarger_spec :
    ∀ (l : List Cluster) (b : Cluster),
      (l.foldl pickLarger b = b ∧ ∀ x ∈ l, x.size ≤ b.size) ∨
      (∃ l₁ l₂, l = l₁ ++ (l.foldl pickLarger b) :: l₂ ∧
        b.size < (l.foldl pickLarger b).size ∧
        (∀ x ∈ l₁, x.size < (l.foldl pickLarger b).size) ∧
        (∀ x ∈ l₂, x.size ≤ (l.foldl pickLarger b).size)) := by
  intro l
  induction l with
  | nil =>
    intro b
    left
    exact ⟨rfl, by simp⟩
  | cons c rest ih =>
    intro b
    rw [List.foldl_cons]
    by_cases hcb : b.size < c.size
    · have hp : pickLarger b c = c := if_pos hcb
      rw [hp]
      rcases ih c with ⟨heq, hle⟩ | ⟨l₁, l₂, hsplit, hlt, hpre, hsuf⟩
      · right
        refine ⟨[], rest, ?_, ?_, ?_, ?_⟩
        · rw [heq, List.nil_append]
        · rw [heq]; exact hcb
        · simp
        · rw [heq]; exact hle
      · right
        refine ⟨c :: l₁, l₂, ?_, lt_trans hcb hlt, ?_, hsuf⟩
        · rw [List.cons_append, ← hsplit]
        · intro x hx
          rcases List.mem_cons.mp hx with hxc | hx'
          · rw [hxc]; exact hlt
          · exact hpre x hx'
    · have hp : pickLarger b c = b := if_neg hcb
      rw [hp]
      rcases ih b with ⟨heq, hle⟩ | ⟨l₁, l₂, hsplit, hlt, hpre, hsuf⟩
      · left
        refine ⟨heq, ?_⟩
        intro x hx
        rcases List.mem_cons.mp hx with hxc | hx'
        · rw [hxc]; exact le_of_not_lt hcb
        · exact hle x hx'
      · right
        refine ⟨c :: l₁, l₂, ?_, hlt, ?_, hsuf⟩
        · rw [List.cons_append, ← hsplit]
        · intro x hx
          rcases List.mem_cons.mp hx with hxc | hx'
          · rw [hxc]; exact lt_of_le_of_lt (le_of_not_lt hcb) hlt
          · exact hpre x hx'

/-- C5: for every record collection (duplicate-free), identity capability
and threshold, the Cluster Engine produces clusters that partition the
input — every record lies in exactly one cluster and cluster sizes sum to
the input cardinality — every non-centroid member meets or exceeds the
threshold against its cluster's centroid, and `largest_cluster` returns a
cluster of maximum size preceded only by strictly smaller clusters (ties
broken by first-encountered order). -/
theorem cluster_partitions_and_largest (identity : SequenceRecord → SequenceRecord → ℚ)
    (t : ℚ) (records : List SequenceRecord) (hnd : records.Nodup) :
    (∀ r ∈ records,
       (cluster identity t records).countP (fun c => decide (r ∈ c.all)) = 1) ∧
    (∀ c ∈ cluster identity t records, ∀ m ∈ c.members, t ≤ identity c.centroid m) ∧
    ((cluster identity t records).map Cluster.size).sum = records.length ∧
    (records ≠ [] →
       ∃ cbest l₁ l₂, largest_cluster (cluster identity t records) = some cbest ∧
         cluster identity t records = l₁ ++ cbest :: l₂ ∧
         (∀ x ∈ l₁, x.size < cbest.size) ∧
         (∀ x ∈ cluster identity t records, x.size ≤ cbest.size)) := by
  have hperm := cluster_all_flatten_perm identity t records
  have hsum : ((cluster identity t records).map Cluster.size).sum = records.length := by
    have h1 := hperm.length_eq
    rw [List.length_flatten, List.map_map] at h1
    exact h1
  refine ⟨?_, ?_, hsum, ?_⟩
  · intro r hr
    have h := countP_flatten_one ((cluster identity t records).map Cluster.all) r
      (hperm.nodup_iff.mpr hnd) (hperm.mem_iff.mpr hr)
    rw [List.countP_map] at h
    exact h
  · intro c hc
    rw [cluster] at hc
    exact greedyClusters_threshold identity t _ _ c hc
  · intro hne
    cases hcl : cluster identity t records with
    | nil =>
      exfalso
      rw [hcl] at hsum
      exact hne (List.eq_nil_of_length_eq_zero hsum.symm)
    | cons c0 restc =>
      rw [largest_cluster]
      rcases foldl_pickLarger_spec restc c0 with ⟨heq, hle⟩ | ⟨l₁, l₂, hsplit, hlt, hpre, hsuf⟩
      · refine ⟨c0, [], restc, ?_, rfl, by simp, ?_⟩
        · rw [heq]
        · intro x hx
          rcases List.mem_cons.mp hx with hxc | hx'
          · rw [hxc]
          · exact hle x hx'
      · refine ⟨restc.foldl pickLarger c0, c0 :: l₁, l₂, rfl, ?_, ?_, ?_⟩
        · rw [List.cons_append, ← hsplit]
        · intro x hx
          rcases List.mem_cons.mp hx with hxc | hx'
          · rw [hxc]; exact hlt
          · exact hpre x hx'
        · intro x hx
          rcases List.mem_cons.mp hx with hxc | hx'
          · rw [hxc]; exact le_of_lt hlt
          · rw [hsplit] at hx'
            rcases List.mem_append.mp hx' with hx₁ | hx₂
            · exact le_of_lt (hpre x hx₁)
            · rcases List.mem_cons.mp hx₂ with hxf | hx₃
              · rw [hxf]
              · exact hsuf x hx₃

/-- Witness for C5: same-subject identity with threshold 1 on three
records yields clusters partitioning all 3 records, with record `X_2`
joining centroid `X_1`, and a largest cluster of maximal size. -/
theorem cluster_partitions_and_largest_witness :
    (cluster identitySameSubject 1 [recX1, recX2, recY1]).countP
        (fun c => decide (recX2 ∈ c.all)) = 1 ∧
    (∀ c ∈ cluster identitySameSubject 1 [recX1, recX2, recY1],
       ∀ m ∈ c.members, (1 : ℚ) ≤ identitySameSubject c.centroid m) ∧
    ((cluster identitySameSubject 1 [recX1, recX2, recY1]).map Cluster.size).sum = 3 ∧
    (∃ cbest l₁ l₂,
       largest_cluster (cluster identitySameSubject 1 [recX1, recX2, recY1]) = some cbest ∧
       cluster identitySameSubject 1 [recX1, recX2, recY1] = l₁ ++ cbest :: l₂ ∧
       (∀ x ∈ l₁, x.size < cbest.size) ∧
       (∀ x ∈ cluster identitySameSubject 1 [recX1, recX2, recY1],
          x.size ≤ cbest.size)) := by
  have h := cluster_partitions_and_largest identitySameSubject 1 [recX1, recX2, recY1]
    (by decide)
  exact ⟨h.1 recX2 (by decide), h.2.1, h.2.2.1, h.2.2.2 (by decide)⟩
